import Mathlib

/-!
Shallow embedding of the cash-flow forecasting core of cashflowpro
(src/db.py and the planner section of src/app.py), together with proofs
about the embedded operations.

Conventions of the embedding:
* SQLite `REAL` amounts are modelled as `ℚ` (exact rational arithmetic; the
  decisions the code makes on amounts are comparisons whose outcome at the
  inputs considered here agrees between IEEE doubles and rationals).
* `tx_date TEXT` columns hold ISO `YYYY-MM-DD` strings; SQL string
  comparison on such strings coincides with calendar order, so dates are
  modelled as a `Date` structure with lexicographic comparison.
* Each function models the corresponding Python function for one fixed
  workspace: the `workspace_id` column and the per-workspace filtering that
  every query performs are dropped, and a `Workspace` record holds the rows
  of that single workspace.
* Python `while` loops over dates are modelled with an explicit `fuel`
  argument; all general theorems are proved for every fuel value.
-/

unseal Rat.add Rat.mul Rat.sub Rat.inv Rat.ofScientific

/-- Gregorian leap-year test (Python `calendar.isleap`). -/
def isLeap (y : Nat) : Bool :=
  y % 4 == 0 && (y % 100 != 0 || y % 400 == 0)

/-- Number of days in month `m` of year `y` (second component of
`calendar.monthrange`); `0` for out-of-range months. -/
def daysInMonth (y : Nat) (m : Nat) : Nat :=
  match m with
  | 1 => 31
  | 2 => if isLeap y then 29 else 28
  | 3 => 31
  | 4 => 30
  | 5 => 31
  | 6 => 30
  | 7 => 31
  | 8 => 31
  | 9 => 30
  | 10 => 31
  | 11 => 30
  | 12 => 31
  | _ => 0

/-- A calendar date, as Python `datetime.date` (year, month, day). -/
structure Date where
  y : Nat
  m : Nat
  d : Nat
deriving DecidableEq, Repr

/-- The date ranges Python's `datetime.date` can actually hold. -/
def Date.Valid (a : Date) : Prop :=
  1 ≤ a.y ∧ 1 ≤ a.m ∧ a.m ≤ 12 ∧ 1 ≤ a.d ∧ a.d ≤ daysInMonth a.y a.m

instance (a : Date) : Decidable a.Valid := by
  unfold Date.Valid; infer_instance

/-- Lexicographic `≤` on dates; agrees with Python date comparison and with
SQL comparison of ISO date strings. -/
def Date.ble (a b : Date) : Bool :=
  Nat.blt a.y b.y ||
    (a.y == b.y && (Nat.blt a.m b.m || (a.m == b.m && Nat.ble a.d b.d)))

/-- Lexicographic `<` on dates. -/
def Date.blt (a b : Date) : Bool :=
  Nat.blt a.y b.y ||
    (a.y == b.y && (Nat.blt a.m b.m || (a.m == b.m && Nat.blt a.d b.d)))

/-- Number of leap years in `[1, y]` (proleptic Gregorian). -/
def leapsBefore (y : Nat) : Nat := y / 4 - y / 100 + y / 400

/-- Days strictly before January 1st of year `y`. -/
def daysBeforeYear (y : Nat) : Nat := 365 * (y - 1) + leapsBefore (y - 1)

/-- Days of year `y` strictly before the first of month `m`. -/
def daysBeforeMonth (y : Nat) (m : Nat) : Nat :=
  let l : Nat := if isLeap y then 1 else 0
  match m with
  | 1 => 0
  | 2 => 31
  | 3 => 59 + l
  | 4 => 90 + l
  | 5 => 120 + l
  | 6 => 151 + l
  | 7 => 181 + l
  | 8 => 212 + l
  | 9 => 243 + l
  | 10 => 273 + l
  | 11 => 304 + l
  | 12 => 334 + l
  | _ => 0

/-- Length of year `y` in days. -/
def yearLen (y : Nat) : Nat := if isLeap y then 366 else 365

/-- Proleptic-Gregorian ordinal of a date, as Python `date.toordinal`
(`(1,1,1).toOrd = 1`). -/
def Date.toOrd (a : Date) : Nat :=
  daysBeforeYear a.y + daysBeforeMonth a.y a.m + a.d

/-- Weekday of a date, as Python `date.weekday` (Monday = 0). -/
def Date.weekday (a : Date) : Nat := (a.toOrd + 6) % 7

/-- The next calendar day (`+ timedelta(days=1)`). -/
def Date.nextDay (a : Date) : Date :=
  if a.d < daysInMonth a.y a.m then ⟨a.y, a.m, a.d + 1⟩
  else if a.m < 12 then ⟨a.y, a.m + 1, 1⟩
  else ⟨a.y + 1, 1, 1⟩

/-- The previous calendar day (`- timedelta(days=1)`). -/
def Date.prevDay (a : Date) : Date :=
  if 1 < a.d then ⟨a.y, a.m, a.d - 1⟩
  else if 1 < a.m then ⟨a.y, a.m - 1, daysInMonth a.y (a.m - 1)⟩
  else ⟨a.y - 1, 12, 31⟩

/-- `a + timedelta(days=n)`. -/
def Date.addDays : Nat → Date → Date
  | 0, a => a
  | n + 1, a => Date.addDays n a.nextDay

/-- `a - timedelta(days=n)`. -/
def Date.subDays : Nat → Date → Date
  | 0, a => a
  | n + 1, a => Date.subDays n a.prevDay

/-- `a + relativedelta(months=1)`: step to the next month, keeping the day
of month when it exists there and clamping to the last day otherwise. -/
def Date.addMonthClamp (a : Date) : Date :=
  if a.m < 12 then ⟨a.y, a.m + 1, min a.d (daysInMonth a.y (a.m + 1))⟩
  else ⟨a.y + 1, 1, min a.d 31⟩

/-- Account type (`accounts.type`). -/
inductive AccType
  | standard
  | credit_card
deriving DecidableEq, Repr

/-- A row of `accounts` (one workspace). -/
structure Account where
  name : String
  typ : AccType
  opening_balance : ℚ
deriving DecidableEq, Repr

/-- A row of `categories` (one workspace). -/
structure Category where
  id : Nat
  name : String
  typ : String
deriving DecidableEq, Repr

/-- A row of `transactions` (one workspace), with the account referenced by
name (account names are unique per workspace by schema). -/
structure TxRow where
  tx_date : Date
  amount : ℚ
  account : String
  category_id : Nat
  description : String
deriving DecidableEq, Repr

/-- A row of `planned_transactions` (one workspace). -/
structure PlannedRow where
  id : Nat
  plan_date : Date
  description : String
  amount : ℚ
  account : String
  category_id : Nat
  status_planned : Bool
deriving DecidableEq, Repr

/-- The `recurring.interval` column values. -/
inductive RecInterval
  | daily
  | weekly
  | monthly
deriving DecidableEq, Repr

/-- A row of `recurring` (one workspace). -/
structure RecRow where
  name : String
  start_date : Date
  interval : RecInterval
  amount : ℚ
  account : String
  category_id : Nat
deriving DecidableEq, Repr

/-- A row of `goals` (one workspace). -/
structure GoalRow where
  id : Nat
  description : String
  amount : ℚ
  status_pending : Bool
deriving DecidableEq, Repr

/-- The rows of one workspace of the ledger store. -/
structure Workspace where
  accounts : List Account
  categories : List Category
  transactions : List TxRow
  planned : List PlannedRow
  recurring : List RecRow
  goals : List GoalRow
deriving Repr

/-- Does the optional account-name filter accept this account name? -/
def filtMatch (filt : Option String) (nm : String) : Bool :=
  match filt with
  | none => true
  | some f => nm == f

/-- The join `JOIN accounts a ON ... WHERE a.type = 'standard' AND
(a.name = ?)?` as a predicate on the account name stored in a row. -/
def accPass (accs : List Account) (filt : Option String) (nm : String) : Bool :=
  accs.any fun a => a.name == nm && a.typ == AccType.standard && filtMatch filt a.name

/-- Provenance of a projected cash event, recoverable in the Python code
from the description prefixes `(Reale)`, `(Pianificato)`, `(Ricorrente)`. -/
inductive Provenance
  | actual
  | planned
  | recurring
deriving DecidableEq, Repr

/-- One entry of the event dictionaries built by `get_future_events`.
The redundant `category` name column is dropped; `category_id` is kept. -/
structure CashEvent where
  date : Date
  description : String
  amount : ℚ
  category_id : Nat
  prov : Provenance
deriving DecidableEq, Repr

/-- Description prefix of actual events. -/
def descReale : String := "(Reale) "

/-- Description prefix of planned events. -/
def descPianificato : String := "(Pianificato) "

/-- Description prefix of recurring events. -/
def descRicorrente : String := "(Ricorrente) "

/-- First query of `get_future_events`: actual transactions in the window
on standard accounts (db.py lines 431-442). -/
def actualEvents (s : Workspace) (sd ed : Date) (filt : Option String) : List CashEvent :=
  (s.transactions.filter fun t =>
      accPass s.accounts filt t.account && Date.ble sd t.tx_date && Date.ble t.tx_date ed).map
    fun t =>
      { date := t.tx_date, description := descReale ++ t.description,
        amount := t.amount, category_id := t.category_id, prov := Provenance.actual }

/-- Second query of `get_future_events`: planned transactions in the window
on standard accounts (db.py lines 444-455); note the query does not filter
on `status`. -/
def plannedEvents (s : Workspace) (sd ed : Date) (filt : Option String) : List CashEvent :=
  (s.planned.filter fun p =>
      accPass s.accounts filt p.account && Date.ble sd p.plan_date && Date.ble p.plan_date ed).map
    fun p =>
      { date := p.plan_date, description := descPianificato ++ p.description,
        amount := p.amount, category_id := p.category_id, prov := Provenance.planned }

/-- The `real_and_planned_lookup` set of `(date, category_id)` pairs
(db.py line 457). -/
def suppressionSet (s : Workspace) (sd ed : Date) (filt : Option String) : List (Date × Nat) :=
  (actualEvents s sd ed filt ++ plannedEvents s sd ed filt).map fun e => (e.date, e.category_id)

/-- First weekly occurrence for a rule starting before the window
(db.py lines 476-478): `start + timedelta(days=(start.weekday() -
rule_start.weekday() + 7) % 7)`. -/
def weeklyFirst (sd rs : Date) : Date :=
  Date.addDays ((sd.weekday + 7 - rs.weekday) % 7) sd

/-- The candidate first monthly occurrence inside the window's start
month: `start.replace(day=rule_day)`, catching the `ValueError` of a
too-short month by clamping to the month's last day (db.py lines 480-484). -/
def monthlyFirstCand (sd rs : Date) : Date :=
  if Nat.ble rs.d (daysInMonth sd.y sd.m) then ⟨sd.y, sd.m, rs.d⟩
  else ⟨sd.y, sd.m, daysInMonth sd.y sd.m⟩

/-- First monthly occurrence for a rule starting before the window
(db.py lines 479-487): the clamped candidate, rolled forward one month if
still before `start`. -/
def monthlyFirst (sd rs : Date) : Date :=
  if Date.blt (monthlyFirstCand sd rs) sd then (monthlyFirstCand sd rs).addMonthClamp
  else monthlyFirstCand sd rs

/-- First occurrence of a recurring rule on or used by the window
(db.py lines 471-487): rules starting inside or after the window start at
their own start date. -/
def firstOccurrence (sd : Date) (rs : Date) (iv : RecInterval) : Date :=
  if Date.blt rs sd then
    match iv with
    | RecInterval.daily => sd
    | RecInterval.weekly => weeklyFirst sd rs
    | RecInterval.monthly => monthlyFirst sd rs
  else rs

/-- The per-iteration date step of the recurrence loop
(db.py lines 493-495). -/
def stepDate (iv : RecInterval) (a : Date) : Date :=
  match iv with
  | RecInterval.daily => Date.addDays 1 a
  | RecInterval.weekly => Date.addDays 7 a
  | RecInterval.monthly => a.addMonthClamp

/-- The dates visited by `while curr_date <= end_date` (db.py line 489),
with explicit fuel. -/
def genOccurrences (fuel : Nat) (iv : RecInterval) (curr ed : Date) : List Date :=
  match fuel with
  | 0 => []
  | fuel + 1 =>
    if Date.ble curr ed then curr :: genOccurrences fuel iv (stepDate iv curr) ed
    else []

/-- The recurring events one rule contributes to the projection
(db.py lines 489-496): every visited date whose `(date, category_id)` pair
is not in the suppression lookup. -/
def ruleEvents (fuel : Nat) (lookup : List (Date × Nat)) (sd ed : Date) (r : RecRow) :
    List CashEvent :=
  (genOccurrences fuel r.interval (firstOccurrence sd r.start_date r.interval) ed).filterMap
    fun d =>
      if (d, r.category_id) ∈ lookup then none
      else
        some { date := d, description := descRicorrente ++ r.name,
               amount := r.amount, category_id := r.category_id,
               prov := Provenance.recurring }

/-- The recurring rules the projection considers: rules on standard
accounts passing the optional account filter (db.py lines 459-468). -/
def filteredRules (s : Workspace) (filt : Option String) : List RecRow :=
  s.recurring.filter fun r => accPass s.accounts filt r.account

/-- All recurring events of the projection. -/
def recurringEvents (fuel : Nat) (s : Workspace) (sd ed : Date) (filt : Option String) :
    List CashEvent :=
  (filteredRules s filt).flatMap
    (ruleEvents fuel (suppressionSet s sd ed filt) sd ed)

/-- `get_future_events` (db.py lines 427-498): actual, planned and
non-suppressed recurring events, stably sorted by date. -/
def get_future_events (fuel : Nat) (s : Workspace) (sd ed : Date) (filt : Option String) :
    List CashEvent :=
  List.insertionSort (fun a b : CashEvent => Date.ble a.date b.date = true)
    (actualEvents s sd ed filt ++ plannedEvents s sd ed filt ++
      recurringEvents fuel s sd ed filt)

/-- `get_balance_before_date` (db.py lines 362-374): opening balances of
standard accounts (optionally one account) plus all transaction amounts
strictly before `start` on standard accounts under the same filter. -/
def get_balance_before_date (s : Workspace) (sd : Date) (filt : Option String) : ℚ :=
  ((s.accounts.filter fun a => a.typ == AccType.standard && filtMatch filt a.name).map
      Account.opening_balance).sum +
    ((s.transactions.filter fun t =>
        accPass s.accounts filt t.account && Date.blt t.tx_date sd).map TxRow.amount).sum

/-- The daily index of the planner dataframe (app.py line 507):
`pd.date_range(start, end, freq='D')`. -/
def dateRange (sd ed : Date) : List Date :=
  (List.range (ed.toOrd + 1 - sd.toOrd)).map fun k => Date.addDays k sd

/-- The `daily_deltas` value for one day (app.py lines 510-513): the sum of
the amounts of all events dated exactly that day. -/
def dayDelta (evts : List CashEvent) (dt : Date) : ℚ :=
  ((evts.filter fun e => e.date == dt).map CashEvent.amount).sum

/-- Running (prefix) sums starting from `acc` (pandas `cumsum` plus the
initial balance, app.py line 514). -/
def cumsumFrom (acc : ℚ) : List ℚ → List ℚ
  | [] => []
  | x :: xs => (acc + x) :: cumsumFrom (acc + x) xs

/-- The planner balance curve (app.py lines 504-514): one balance per day
of the horizon, `initial + cumulative sum of daily event deltas`. -/
def planner_curve (fuel : Nat) (s : Workspace) (sd ed : Date) (filt : Option String) :
    List ℚ :=
  cumsumFrom (get_balance_before_date s sd filt)
    ((dateRange sd ed).map (dayDelta (get_future_events fuel s sd ed filt)))

/-- `temp_forecast`: the working curve with the goal amount added to every
day at index `d` or later (app.py lines 520-521). -/
def addFrom (d : Nat) (g : ℚ) (curve : List ℚ) : List ℚ :=
  curve.mapIdx fun i x => if d ≤ i then x + g else x

/-- Minimum of the curve from index `d` on (`temp_forecast.loc[day:].min()`,
app.py line 522); `0` on an empty suffix (never consulted there by the
scheduler, which only evaluates it at indices inside the curve). -/
def minFrom (d : Nat) (curve : List ℚ) : ℚ :=
  match curve.drop d with
  | [] => 0
  | x :: xs => xs.foldl min x

/-- The scan `for day in df_planner.index` (app.py lines 519-525), started
at index `d` with `steps` candidate days left. -/
def scanDays (safety g : ℚ) (curve : List ℚ) : Nat → Nat → Option (Nat × List ℚ)
  | 0, _ => none
  | steps + 1, d =>
    let temp := addFrom d g curve
    if safety ≤ minFrom d temp then some (d, temp)
    else scanDays safety g curve steps (d + 1)

/-- First day of the horizon on which the goal fits, together with the
updated working curve; `none` when no day fits. -/
def findDay (safety g : ℚ) (curve : List ℚ) : Option (Nat × List ℚ) :=
  scanDays safety g curve curve.length 0

/-- One row of the planner results table (app.py lines 526-530): the goal
description and its scheduled day index, `none` meaning `Non fattibile`. -/
structure GoalResult where
  description : String
  outcome : Option Nat
deriving DecidableEq, Repr

/-- The goal loop of the planner (app.py lines 516-531): goals are tried in
order; an accepted goal permanently replaces the working curve by the
hypothetical one, a rejected goal leaves it unchanged. -/
def scheduleGoals (safety : ℚ) : List ℚ → List GoalRow → List GoalResult × List ℚ
  | curve, [] => ([], curve)
  | curve, g :: gs =>
    match findDay safety g.amount curve with
    | some (d, newCurve) =>
      let r := scheduleGoals safety newCurve gs
      ({ description := g.description, outcome := some d } :: r.1, r.2)
    | none =>
      let r := scheduleGoals safety curve gs
      ({ description := g.description, outcome := none } :: r.1, r.2)

/-- `add_goal` (db.py lines 636-637): the stored amount is `-abs(amount)`. -/
def add_goal (s : Workspace) (gid : Nat) (ds : String) (amount : ℚ) : Workspace :=
  { s with goals := s.goals ++ [{ id := gid, description := ds, amount := -|amount|, status_pending := true }] }

/-- `get_goals` (db.py lines 639-640): pending goals `ORDER BY amount ASC`
(a stable sort on the signed stored amount). -/
def get_goals (s : Workspace) : List GoalRow :=
  List.insertionSort (fun a b : GoalRow => a.amount ≤ b.amount)
    (s.goals.filter fun g => g.status_pending)

/-- The whole planner run of the dashboard (app.py lines 504-531): build
the balance curve, then greedily schedule the goals returned by
`get_goals` over it. -/
def runPlanner (fuel : Nat) (s : Workspace) (sd ed : Date) (filt : Option String)
    (safety : ℚ) : List GoalResult × List ℚ :=
  scheduleGoals safety (planner_curve fuel s sd ed filt) (get_goals s)

/-- The row returned by `find_best_matching_planned_tx`. -/
structure PlannedMatch where
  id : Nat
  plan_date : Date
  description : String
  amount : ℚ
deriving DecidableEq, Repr

/-- Strict comparison on the `ORDER BY ABS(amount - ?) ASC,
ABS(julianday(plan_date) - julianday(?)) ASC` key. -/
def matchKeyLt (txd : Date) (txAmount : ℚ) (p q : PlannedRow) : Bool :=
  decide (|p.amount - txAmount| < |q.amount - txAmount|) ||
    (decide (|p.amount - txAmount| = |q.amount - txAmount|) &&
      decide ((|(p.plan_date.toOrd : ℤ) - (txd.toOrd : ℤ)|) <
        (|(q.plan_date.toOrd : ℤ) - (txd.toOrd : ℤ)|)))

/-- `find_best_matching_planned_tx` (db.py lines 610-620): planned rows
still `planned`, dated within `± tolerance_days` of the candidate date and
with amount within `± tolerance_percent` of the candidate amount; of these
the one minimising (amount distance, date distance). `LIMIT 1` on equal
keys is not specified by SQLite; the model keeps the earliest row. -/
def find_best_matching_planned_tx (s : Workspace) (txd : Date) (txAmount : ℚ)
    (tolerance_days : Nat) (tolerance_percent : ℚ) : Option PlannedMatch :=
  let dMinus := Date.subDays tolerance_days txd
  let dPlus := Date.addDays tolerance_days txd
  let amountTol := |txAmount * tolerance_percent|
  let aMin := txAmount - amountTol
  let aMax := txAmount + amountTol
  let cands := s.planned.filter fun p =>
    p.status_planned && Date.ble dMinus p.plan_date && Date.ble p.plan_date dPlus &&
      decide (min aMin aMax ≤ p.amount) && decide (p.amount ≤ max aMin aMax)
  let best := cands.foldl
    (fun acc p =>
      match acc with
      | none => some p
      | some q => if matchKeyLt txd txAmount p q then some p else acc)
    none
  best.map fun p => { id := p.id, plan_date := p.plan_date, description := p.description, amount := p.amount }

/-- The argument record of `reconcile_tx` (`new_tx_data`); the date is
`none` when `parse_date` failed on both accepted formats. -/
structure NewTxData where
  date : Option Date
  amount : ℚ
  account : String
  category : String
  description : String
deriving DecidableEq, Repr

/-- Fresh row id for an insert (SQLite assigns an unused id). -/
def freshCatId (cats : List Category) : Nat :=
  (cats.map Category.id).foldl max 0 + 1

/-- `get_or_create` on `categories` (db.py lines 173-189): the id of the
existing category of that name, or a fresh id after inserting one. -/
def get_or_create_category (cats : List Category) (nm : String) (ty : String) :
    Nat × List Category :=
  match cats.find? fun c => c.name == nm with
  | some c => (c.id, cats)
  | none => (freshCatId cats, cats ++ [{ id := freshCatId cats, name := nm, typ := ty }])

/-- `reconcile_tx` (db.py lines 622-634): inside one transaction, insert
the real transaction and delete the planned row with the matched id; any
exception rolls the whole transaction back (modelled by returning the
state unchanged). `get_or_create` on a missing account returns `NULL`,
which makes the insert violate `NOT NULL` and raise, hence the account
guard. There is no re-check that the planned row still exists: the delete
simply affects zero rows. -/
def reconcile_tx (s : Workspace) (planned_tx_id : Nat) (t : NewTxData) : Workspace :=
  match t.date with
  | none => s
  | some dt =>
    if s.accounts.any fun a => a.name == t.account then
      let created := get_or_create_category s.categories t.category "expense"
      { s with
        categories := created.2,
        transactions := s.transactions ++
          [{ tx_date := dt, amount := t.amount, account := t.account,
             category_id := created.1, description := t.description }],
        planned := s.planned.filter fun p => !(p.id == planned_tx_id) }
    else s

/-- Consecutive day gaps of a date list (`group['date'].diff().dt.days`,
db.py line 529), as integers. -/
def dayGaps : List Date → List ℤ
  | [] => []
  | [_] => []
  | a :: b :: rest => ((b.toOrd : ℤ) - (a.toOrd : ℤ)) :: dayGaps (b :: rest)

/-- The per-group classification step of `find_recurring_suggestions`
(db.py lines 527-534): groups of fewer than 3 transactions are skipped;
otherwise the consecutive day gaps of the date-sorted group decide the
interval. The float test `count / (len(group) - 1) >= 0.8` is modelled
exactly as `5 * count ≥ 4 * (len - 1)`: for the integer ranges reachable
here the IEEE-double comparison agrees with the rational one. -/
def classify_group (dates : List Date) : Option RecInterval :=
  if dates.length < 3 then none
  else
    let gaps := dayGaps (List.insertionSort (fun a b : Date => Date.ble a b = true) dates)
    let n := dates.length - 1
    if 4 * n ≤ 5 * (gaps.countP fun g => decide (28 ≤ g) && decide (g ≤ 32)) then
      some RecInterval.monthly
    else if 4 * n ≤ 5 * (gaps.countP fun g => decide (6 ≤ g) && decide (g ≤ 8)) then
      some RecInterval.weekly
    else none


/-- The amended-claim formulation of the first monthly occurrence, written
from the corrected spec wording: the rule's day-of-month clamped into the
projection-start month, rolled forward one (clamped) month if the clamped
date is still before the projection start. Compared against the code's
`firstOccurrence` in the C3 theorem. -/
def monthlyFirstSpec (sd rs : Date) : Date :=
  if Date.blt ⟨sd.y, sd.m, min rs.d (daysInMonth sd.y sd.m)⟩ sd then
    Date.addMonthClamp ⟨sd.y, sd.m, min rs.d (daysInMonth sd.y sd.m)⟩
  else ⟨sd.y, sd.m, min rs.d (daysInMonth sd.y sd.m)⟩

/-- Workspace with two pending goals of distinct magnitudes (C1). -/
def wsC1 : Workspace :=
  { accounts := [{ name := "A", typ := AccType.standard, opening_balance := 1000 }],
    categories := [], transactions := [], planned := [], recurring := [],
    goals := [{ id := 1, description := "tv", amount := -100, status_pending := true },
              { id := 2, description := "car", amount := -500, status_pending := true }] }

/-- Workspace with one weekly rule anchored on Monday 2024-01-01 (C2). -/
def wsC2 : Workspace :=
  { accounts := [{ name := "A", typ := AccType.standard, opening_balance := 0 }],
    categories := [], transactions := [], planned := [],
    recurring := [{ name := "gym", start_date := ⟨2024, 1, 1⟩,
                    interval := RecInterval.weekly, amount := -10, account := "A",
                    category_id := 1 }],
    goals := [] }

/-- Workspace with one monthly rule anchored on day 31 (C3). -/
def wsC3 : Workspace :=
  { accounts := [{ name := "A", typ := AccType.standard, opening_balance := 0 }],
    categories := [], transactions := [], planned := [],
    recurring := [{ name := "rent", start_date := ⟨2023, 12, 31⟩,
                    interval := RecInterval.monthly, amount := -700, account := "A",
                    category_id := 2 }],
    goals := [] }

/-- Workspace with one outstanding planned transaction of amount 100 (C4). -/
def wsC4 : Workspace :=
  { accounts := [], categories := [], transactions := [],
    planned := [{ id := 1, plan_date := ⟨2024, 5, 10⟩, description := "insurance",
                  amount := 100, account := "A", category_id := 1,
                  status_planned := true }],
    recurring := [], goals := [] }

/-- Workspace where a planned entry and a daily rule share a
`(date, category)` pair (C5). -/
def wsC5 : Workspace :=
  { accounts := [{ name := "A", typ := AccType.standard, opening_balance := 0 }],
    categories := [], transactions := [],
    planned := [{ id := 1, plan_date := ⟨2024, 1, 2⟩, description := "p",
                  amount := 5, account := "A", category_id := 7,
                  status_planned := true }],
    recurring := [{ name := "r", start_date := ⟨2024, 1, 2⟩,
                    interval := RecInterval.daily, amount := -3, account := "A",
                    category_id := 7 }],
    goals := [] }

/-- Workspace with an opening balance, one pre-start transaction and one
planned transaction inside the horizon (C6). -/
def wsC6 : Workspace :=
  { accounts := [{ name := "A", typ := AccType.standard, opening_balance := 10 }],
    categories := [],
    transactions := [{ tx_date := ⟨2023, 12, 30⟩, amount := 5, account := "A",
                       category_id := 1, description := "old" }],
    planned := [{ id := 1, plan_date := ⟨2024, 1, 2⟩, description := "p",
                  amount := 3, account := "A", category_id := 1,
                  status_planned := true }],
    recurring := [], goals := [] }

/-- Workspace whose only planned entry has id 2 (C9: reconciling id 1 must
leave it alone). -/
def wsC9 : Workspace :=
  { accounts := [{ name := "A", typ := AccType.standard, opening_balance := 0 }],
    categories := [{ id := 1, name := "Food", typ := "expense" }],
    transactions := [],
    planned := [{ id := 2, plan_date := ⟨2024, 1, 9⟩, description := "q",
                  amount := -8, account := "A", category_id := 1,
                  status_planned := true }],
    recurring := [], goals := [] }

/-- Workspace with no planned entries at all: the reconcile target has
vanished (C9 counterexample). -/
def wsC9gone : Workspace :=
  { accounts := [{ name := "A", typ := AccType.standard, opening_balance := 0 }],
    categories := [{ id := 1, name := "Food", typ := "expense" }],
    transactions := [], planned := [], recurring := [], goals := [] }

/-- The reconciled real transaction used in the C9 theorems. -/
def txC9 : NewTxData :=
  { date := some ⟨2024, 1, 5⟩, amount := -20, account := "A", category := "Food",
    description := "x" }

/-- Workspace with two distinct daily rules sharing category 4 (C10). -/
def wsC10 : Workspace :=
  { accounts := [{ name := "A", typ := AccType.standard, opening_balance := 0 }],
    categories := [], transactions := [], planned := [],
    recurring := [{ name := "r1", start_date := ⟨2024, 1, 1⟩,
                    interval := RecInterval.daily, amount := -1, account := "A",
                    category_id := 4 },
                  { name := "r2", start_date := ⟨2024, 1, 1⟩,
                    interval := RecInterval.daily, amount := -2, account := "A",
                    category_id := 4 }],
    goals := [] }

/-- Date list whose consecutive gaps are 30, 30, 31 days (C8). -/
def datesMonthlyC8 : List Date :=
  [⟨2024, 1, 1⟩, ⟨2024, 1, 31⟩, ⟨2024, 3, 1⟩, ⟨2024, 4, 1⟩]

/-- Date list whose consecutive gaps are 5, 40, 2 days (C8). -/
def datesRejectC8 : List Date :=
  [⟨2024, 1, 1⟩, ⟨2024, 1, 6⟩, ⟨2024, 2, 15⟩, ⟨2024, 2, 17⟩]

/-- Validity of all dates stored in a workspace (guaranteed in the code by
`parse_date`, which only ever stores real `datetime.date` values). -/
def DatesValid (s : Workspace) : Prop :=
  (∀ t ∈ s.transactions, t.tx_date.Valid) ∧
    (∀ p ∈ s.planned, p.plan_date.Valid) ∧
    (∀ r ∈ s.recurring, r.start_date.Valid)

instance (s : Workspace) : Decidable (DatesValid s) := by
  unfold DatesValid; infer_instance
theorem Date.ble_iff (a b : Date) :
    Date.ble a b = true ↔
      a.y < b.y ∨ (a.y = b.y ∧ (a.m < b.m ∨ (a.m = b.m ∧ a.d ≤ b.d))) := by
  simp [Date.ble, Nat.blt_eq, Nat.ble_eq]

theorem Date.blt_iff (a b : Date) :
    Date.blt a b = true ↔
      a.y < b.y ∨ (a.y = b.y ∧ (a.m < b.m ∨ (a.m = b.m ∧ a.d < b.d))) := by
  simp [Date.blt, Nat.blt_eq]

theorem Date.ble_refl (a : Date) : Date.ble a a = true := by
  simp [Date.ble_iff]

theorem Date.ble_trans {a b c : Date} (h1 : Date.ble a b = true)
    (h2 : Date.ble b c = true) : Date.ble a c = true := by
  rw [Date.ble_iff] at h1 h2 ⊢
  omega

theorem Date.ble_antisymm {a b : Date} (h1 : Date.ble a b = true)
    (h2 : Date.ble b a = true) : a = b := by
  rw [Date.ble_iff] at h1 h2
  rcases a with ⟨ay, am, ad⟩
  rcases b with ⟨by_, bm, bd⟩
  simp_all only [Date.mk.injEq]
  omega

theorem Date.ble_total (a b : Date) :
    Date.ble a b = true ∨ Date.ble b a = true := by
  rw [Date.ble_iff, Date.ble_iff]
  omega

theorem Date.not_blt {a b : Date} (h : Date.blt a b = false) :
    Date.ble b a = true := by
  rw [Date.ble_iff]
  have h' := h
  rw [← Bool.not_eq_true, Date.blt_iff] at h'
  omega

theorem Date.blt_ble {a b : Date} (h : Date.blt a b = true) :
    Date.ble a b = true := by
  rw [Date.blt_iff] at h
  rw [Date.ble_iff]
  omega

theorem daysInMonth_ge (y : Nat) (m : Nat) (h1 : 1 ≤ m) (h2 : m ≤ 12) :
    28 ≤ daysInMonth y m := by
  interval_cases m <;> simp [daysInMonth] <;> split <;> omega

theorem daysInMonth_le (y : Nat) (m : Nat) : daysInMonth y m ≤ 31 := by
  rcases m with _ | _ | _ | _ | _ | _ | _ | _ | _ | _ | _ | _ | _ | m <;>
    simp [daysInMonth] <;> split <;> omega

theorem daysBeforeMonth_succ (y : Nat) (m : Nat) (h1 : 1 ≤ m) (h2 : m ≤ 11) :
    daysBeforeMonth y (m + 1) = daysBeforeMonth y m + daysInMonth y m := by
  interval_cases m <;> simp [daysBeforeMonth, daysInMonth] <;> split <;> omega

theorem daysBeforeMonth_last (y : Nat) :
    daysBeforeMonth y 12 + daysInMonth y 12 = yearLen y := by
  simp only [daysBeforeMonth, daysInMonth, yearLen]
  split <;> omega

theorem daysBeforeMonth_mono (y : Nat) {m1 m2 : Nat} (h1 : 1 ≤ m1)
    (h : m1 ≤ m2) (h2 : m2 ≤ 12) : daysBeforeMonth y m1 ≤ daysBeforeMonth y m2 := by
  revert h2
  induction m2, h using Nat.le_induction with
  | base => intro _; exact Nat.le_refl _
  | succ n hn ih =>
    intro h2
    have hs := daysBeforeMonth_succ y n (by omega) (by omega)
    have hih := ih (by omega)
    omega

theorem daysBeforeMonth_add_le (y : Nat) (m : Nat) (h1 : 1 ≤ m) (h2 : m ≤ 12) :
    daysBeforeMonth y m + daysInMonth y m ≤ yearLen y := by
  rcases Nat.lt_or_ge m 12 with hlt | hge
  · have hs := daysBeforeMonth_succ y m h1 (by omega)
    have hmono : daysBeforeMonth y (m + 1) ≤ daysBeforeMonth y 12 :=
      daysBeforeMonth_mono y (by omega) (by omega) (by omega)
    have hl := daysBeforeMonth_last y
    have := daysInMonth_ge y 12 (by omega) (by omega)
    omega
  · have : m = 12 := by omega
    subst this
    exact Nat.le_of_eq (daysBeforeMonth_last y)

set_option maxHeartbeats 1000000 in
theorem leapsBefore_succ (y : Nat) (h : 1 ≤ y) :
    leapsBefore y = leapsBefore (y - 1) + (if isLeap y then 1 else 0) := by
  have hy : y - 1 + 1 = y := by omega
  simp only [leapsBefore, isLeap]
  split
  · rename_i hleap
    simp only [Bool.and_eq_true, beq_iff_eq, Bool.or_eq_true, bne_iff_ne, ne_eq] at hleap
    omega
  · rename_i hleap
    simp only [Bool.and_eq_true, beq_iff_eq, Bool.or_eq_true, bne_iff_ne, ne_eq,
      not_and, not_or, not_not] at hleap
    omega

theorem daysBeforeYear_succ (y : Nat) (h : 1 ≤ y) :
    daysBeforeYear (y + 1) = daysBeforeYear y + yearLen y := by
  have hl := leapsBefore_succ y h
  cases hleap : isLeap y <;>
    simp only [hleap, Bool.false_eq_true, if_true, if_false] at hl <;>
    simp [daysBeforeYear, yearLen, hleap] <;> omega

theorem daysBeforeYear_mono {y1 y2 : Nat} (h1 : 1 ≤ y1) (h : y1 ≤ y2) :
    daysBeforeYear y1 ≤ daysBeforeYear y2 := by
  induction y2, h using Nat.le_induction with
  | base => exact Nat.le_refl _
  | succ n hn ih =>
    have hs := daysBeforeYear_succ n (by omega)
    omega

theorem toOrd_lower {a : Date} (h : a.Valid) :
    daysBeforeYear a.y + 1 ≤ a.toOrd := by
  obtain ⟨h1, h2, h3, h4, h5⟩ := h
  simp only [Date.toOrd]
  omega

theorem toOrd_upper {a : Date} (h : a.Valid) :
    a.toOrd ≤ daysBeforeYear (a.y + 1) := by
  obtain ⟨h1, h2, h3, h4, h5⟩ := h
  have hb := daysBeforeMonth_add_le a.y a.m h2 h3
  have hs := daysBeforeYear_succ a.y h1
  simp only [Date.toOrd]
  omega

theorem toOrd_strictMono {a b : Date} (ha : a.Valid) (hb : b.Valid)
    (h : Date.blt a b = true) : a.toOrd < b.toOrd := by
  obtain ⟨ha1, ha2, ha3, ha4, ha5⟩ := ha
  obtain ⟨hb1, hb2, hb3, hb4, hb5⟩ := hb
  rw [Date.blt_iff] at h
  rcases h with hy | ⟨hy, hm | ⟨hm, hd⟩⟩
  · have h1 : a.toOrd ≤ daysBeforeYear (a.y + 1) :=
      toOrd_upper ⟨ha1, ha2, ha3, ha4, ha5⟩
    have h2 : daysBeforeYear (a.y + 1) ≤ daysBeforeYear b.y :=
      daysBeforeYear_mono (by omega) (by omega)
    have h3 : daysBeforeYear b.y + 1 ≤ b.toOrd :=
      toOrd_lower ⟨hb1, hb2, hb3, hb4, hb5⟩
    omega
  · have hs : daysBeforeMonth a.y (a.m + 1) = daysBeforeMonth a.y a.m + daysInMonth a.y a.m :=
      daysBeforeMonth_succ a.y a.m ha2 (by omega)
    have hmono : daysBeforeMonth a.y (a.m + 1) ≤ daysBeforeMonth a.y b.m :=
      daysBeforeMonth_mono a.y (by omega) (by omega) hb3
    simp only [Date.toOrd, hy] at *
    omega
  · simp only [Date.toOrd, hy, hm]
    omega

theorem toOrd_inj {a b : Date} (ha : a.Valid) (hb : b.Valid)
    (h : a.toOrd = b.toOrd) : a = b := by
  rcases hab : Date.blt a b with hf | ht
  · rcases hba : Date.blt b a with hf2 | ht2
    · have h1 := Date.not_blt hab
      have h2 := Date.not_blt hba
      exact Date.ble_antisymm h2 h1
    · have := toOrd_strictMono hb ha hba
      omega
  · have := toOrd_strictMono ha hb hab
    omega

theorem ble_iff_toOrd {a b : Date} (ha : a.Valid) (hb : b.Valid) :
    Date.ble a b = true ↔ a.toOrd ≤ b.toOrd := by
  constructor
  · intro h
    rcases hab : Date.blt a b with hf | ht
    · have hle := Date.not_blt hab
      have hEq : a = b := Date.ble_antisymm h hle
      rw [hEq]
    · exact Nat.le_of_lt (toOrd_strictMono ha hb hab)
  · intro h
    rcases hab : Date.ble a b with hf | ht
    · have hba : Date.blt b a = true := by
        rw [Date.blt_iff]
        have h' := hab
        rw [← Bool.not_eq_true, Date.ble_iff] at h'
        omega
      have := toOrd_strictMono hb ha hba
      omega
    · rfl

theorem Date.y_mk (y m d : Nat) : (Date.mk y m d).y = y := rfl

theorem Date.m_mk (y m d : Nat) : (Date.mk y m d).m = m := rfl

theorem Date.d_mk (y m d : Nat) : (Date.mk y m d).d = d := rfl

theorem Date.valid_mk {y m d : Nat} :
    (Date.mk y m d).Valid ↔ 1 ≤ y ∧ 1 ≤ m ∧ m ≤ 12 ∧ 1 ≤ d ∧ d ≤ daysInMonth y m :=
  Iff.rfl

theorem Date.toOrd_mk (y m d : Nat) :
    (Date.mk y m d).toOrd = daysBeforeYear y + daysBeforeMonth y m + d := rfl

theorem nextDay_valid {a : Date} (h : a.Valid) : a.nextDay.Valid := by
  obtain ⟨h1, h2, h3, h4, h5⟩ := h
  unfold Date.nextDay
  split
  · rw [Date.valid_mk]
    exact ⟨h1, h2, h3, by omega, by omega⟩
  · split
    · rename_i hm
      rw [Date.valid_mk]
      refine ⟨h1, by omega, by omega, by omega, ?_⟩
      have := daysInMonth_ge a.y (a.m + 1) (by omega) (by omega)
      omega
    · rw [Date.valid_mk]
      refine ⟨by omega, by omega, by omega, by omega, ?_⟩
      have := daysInMonth_ge (a.y + 1) 1 (by omega) (by omega)
      omega

theorem toOrd_nextDay {a : Date} (h : a.Valid) :
    a.nextDay.toOrd = a.toOrd + 1 := by
  obtain ⟨h1, h2, h3, h4, h5⟩ := h
  unfold Date.nextDay
  split
  · rw [Date.toOrd_mk]
    simp only [Date.toOrd]
    omega
  · split
    · rename_i hd hm
      have hs : daysBeforeMonth a.y (a.m + 1) = daysBeforeMonth a.y a.m + daysInMonth a.y a.m :=
        daysBeforeMonth_succ a.y a.m h2 (by omega)
      rw [Date.toOrd_mk]
      simp only [Date.toOrd]
      omega
    · rename_i hd hm
      have hm12 : a.m = 12 := by omega
      have hdim12 : daysInMonth a.y 12 = 31 := by simp [daysInMonth]
      rw [hm12] at h5 hd
      have hd31 : a.d = 31 := by omega
      have hy : daysBeforeYear (a.y + 1) = daysBeforeYear a.y + yearLen a.y :=
        daysBeforeYear_succ a.y h1
      have hl : daysBeforeMonth a.y 12 + daysInMonth a.y 12 = yearLen a.y :=
        daysBeforeMonth_last a.y
      have hdim : daysInMonth a.y 12 = 31 := by simp [daysInMonth]
      rw [Date.toOrd_mk]
      simp only [Date.toOrd, hm12]
      have hdbm1 : daysBeforeMonth (a.y + 1) 1 = 0 := rfl
      omega

theorem addDays_valid {a : Date} (n : Nat) (h : a.Valid) :
    (Date.addDays n a).Valid := by
  induction n generalizing a with
  | zero => exact h
  | succ k ih => exact ih (nextDay_valid h)

theorem toOrd_addDays {a : Date} (n : Nat) (h : a.Valid) :
    (Date.addDays n a).toOrd = a.toOrd + n := by
  induction n generalizing a with
  | zero => rfl
  | succ k ih =>
    have h1 : (Date.addDays k a.nextDay).toOrd = a.nextDay.toOrd + k := ih (nextDay_valid h)
    have h2 := toOrd_nextDay h
    simp only [Date.addDays]
    omega

theorem ble_nextDay (a : Date) : Date.ble a a.nextDay = true := by
  unfold Date.nextDay
  split
  · simp only [Date.ble_iff, Date.y_mk, Date.m_mk, Date.d_mk, true_and, eq_self_iff_true]; omega
  · split
    · simp only [Date.ble_iff, Date.y_mk, Date.m_mk, Date.d_mk, true_and, eq_self_iff_true]; omega
    · simp only [Date.ble_iff, Date.y_mk, Date.m_mk, Date.d_mk, true_and, eq_self_iff_true]; omega

theorem ble_addDays (n : Nat) (a : Date) : Date.ble a (Date.addDays n a) = true := by
  induction n generalizing a with
  | zero => exact Date.ble_refl a
  | succ k ih =>
    simp only [Date.addDays]
    exact Date.ble_trans (ble_nextDay a) (ih a.nextDay)

theorem ble_addMonthClamp (a : Date) : Date.ble a a.addMonthClamp = true := by
  unfold Date.addMonthClamp
  split
  · simp only [Date.ble_iff, Date.y_mk, Date.m_mk, Date.d_mk, true_and, eq_self_iff_true]; omega
  · simp only [Date.ble_iff, Date.y_mk, Date.m_mk, Date.d_mk, true_and, eq_self_iff_true]; omega

theorem ble_stepDate (iv : RecInterval) (a : Date) :
    Date.ble a (stepDate iv a) = true := by
  cases iv with
  | daily => exact ble_addDays 1 a
  | weekly => exact ble_addDays 7 a
  | monthly => exact ble_addMonthClamp a

theorem addMonthClamp_valid {a : Date} (h : a.Valid) : a.addMonthClamp.Valid := by
  obtain ⟨h1, h2, h3, h4, h5⟩ := h
  unfold Date.addMonthClamp
  split
  · rename_i hm
    rw [Date.valid_mk]
    have := daysInMonth_ge a.y (a.m + 1) (by omega) (by omega)
    refine ⟨h1, by omega, by omega, by omega, by omega⟩
  · rw [Date.valid_mk]
    have hj : daysInMonth (a.y + 1) 1 = 31 := rfl
    refine ⟨by omega, by omega, by omega, by omega, by omega⟩

theorem stepDate_valid (iv : RecInterval) {a : Date} (h : a.Valid) :
    (stepDate iv a).Valid := by
  cases iv with
  | daily => exact addDays_valid 1 h
  | weekly => exact addDays_valid 7 h
  | monthly => exact addMonthClamp_valid h

theorem genOccurrences_le {fuel : Nat} {iv : RecInterval} {c ed x : Date}
    (h : x ∈ genOccurrences fuel iv c ed) :
    Date.ble c x = true ∧ Date.ble x ed = true := by
  induction fuel generalizing c with
  | zero => simp [genOccurrences] at h
  | succ k ih =>
    simp only [genOccurrences] at h
    split at h
    · rename_i hg
      rcases List.mem_cons.mp h with hx | hx
      · subst hx; exact ⟨Date.ble_refl x, hg⟩
      · obtain ⟨hc, he⟩ := ih hx
        exact ⟨Date.ble_trans (ble_stepDate iv c) hc, he⟩
    · simp at h

theorem genOccurrences_valid {fuel : Nat} {iv : RecInterval} {c ed x : Date}
    (hc : c.Valid) (h : x ∈ genOccurrences fuel iv c ed) : x.Valid := by
  induction fuel generalizing c with
  | zero => simp [genOccurrences] at h
  | succ k ih =>
    simp only [genOccurrences] at h
    split at h
    · rcases List.mem_cons.mp h with hx | hx
      · subst hx; exact hc
      · exact ih (stepDate_valid iv hc) hx
    · simp at h

theorem genOccurrences_chain (fuel : Nat) (iv : RecInterval) (c ed : Date) :
    List.Chain' (fun a b => b = stepDate iv a) (genOccurrences fuel iv c ed) := by
  induction fuel generalizing c with
  | zero => simp [genOccurrences]
  | succ k ih =>
    simp only [genOccurrences]
    split
    · rename_i hg
      refine List.chain'_cons'.mpr ⟨?_, ih (stepDate iv c)⟩
      intro x hx
      cases k with
      | zero => simp [genOccurrences] at hx
      | succ k2 =>
        simp only [genOccurrences] at hx
        split at hx
        · simp only [List.head?_cons, Option.mem_def, Option.some.injEq] at hx
          exact hx.symm
        · simp at hx
    · exact List.chain'_nil

theorem weeklyFirst_ge (sd rs : Date) : Date.ble sd (weeklyFirst sd rs) = true :=
  ble_addDays _ sd

theorem monthlyFirstCand_y (sd rs : Date) : (monthlyFirstCand sd rs).y = sd.y := by
  unfold monthlyFirstCand; split <;> rfl

theorem monthlyFirstCand_m (sd rs : Date) : (monthlyFirstCand sd rs).m = sd.m := by
  unfold monthlyFirstCand; split <;> rfl

theorem monthlyFirst_ge (sd rs : Date) : Date.ble sd (monthlyFirst sd rs) = true := by
  unfold monthlyFirst
  split
  · have hy := monthlyFirstCand_y sd rs
    have hm := monthlyFirstCand_m sd rs
    unfold Date.addMonthClamp
    split <;> simp only [Date.ble_iff, Date.y_mk, Date.m_mk, Date.d_mk, true_and, eq_self_iff_true] <;> omega
  · rename_i hge
    exact Date.not_blt (Bool.eq_false_iff.mpr hge)

theorem firstOccurrence_ge (sd rs : Date) (iv : RecInterval) :
    Date.ble sd (firstOccurrence sd rs iv) = true := by
  unfold firstOccurrence
  split
  · cases iv with
    | daily => exact Date.ble_refl sd
    | weekly => exact weeklyFirst_ge sd rs
    | monthly => exact monthlyFirst_ge sd rs
  · rename_i hge
    exact Date.not_blt (by simpa using hge)

theorem weeklyFirst_valid {sd : Date} (rs : Date) (h : sd.Valid) :
    (weeklyFirst sd rs).Valid :=
  addDays_valid _ h

theorem monthlyFirstCand_valid {sd rs : Date} (hsd : sd.Valid) (hrs : rs.Valid) :
    (monthlyFirstCand sd rs).Valid := by
  obtain ⟨h1, h2, h3, h4, h5⟩ := hsd
  obtain ⟨g1, g2, g3, g4, g5⟩ := hrs
  unfold monthlyFirstCand
  split
  · rename_i hble
    rw [Nat.ble_eq] at hble
    exact Date.valid_mk.mpr ⟨h1, h2, h3, g4, hble⟩
  · exact Date.valid_mk.mpr ⟨h1, h2, h3, by omega, Nat.le_refl _⟩

theorem monthlyFirst_valid {sd rs : Date} (hsd : sd.Valid) (hrs : rs.Valid) :
    (monthlyFirst sd rs).Valid := by
  unfold monthlyFirst
  split
  · exact addMonthClamp_valid (monthlyFirstCand_valid hsd hrs)
  · exact monthlyFirstCand_valid hsd hrs

theorem firstOccurrence_valid {sd rs : Date} (iv : RecInterval)
    (hsd : sd.Valid) (hrs : rs.Valid) : (firstOccurrence sd rs iv).Valid := by
  unfold firstOccurrence
  split
  · cases iv with
    | daily => exact hsd
    | weekly => exact weeklyFirst_valid rs hsd
    | monthly => exact monthlyFirst_valid hsd hrs
  · exact hrs


theorem actualEvents_prov {s : Workspace} {sd ed : Date} {filt : Option String}
    {e : CashEvent} (h : e ∈ actualEvents s sd ed filt) : e.prov = Provenance.actual := by
  unfold actualEvents at h
  obtain ⟨t, _, rfl⟩ := List.mem_map.mp h
  rfl

theorem plannedEvents_prov {s : Workspace} {sd ed : Date} {filt : Option String}
    {e : CashEvent} (h : e ∈ plannedEvents s sd ed filt) : e.prov = Provenance.planned := by
  unfold plannedEvents at h
  obtain ⟨t, _, rfl⟩ := List.mem_map.mp h
  rfl

theorem ruleEvents_mem {fuel : Nat} {lookup : List (Date × Nat)} {sd ed : Date}
    {r : RecRow} {e : CashEvent} (h : e ∈ ruleEvents fuel lookup sd ed r) :
    ∃ d, d ∈ genOccurrences fuel r.interval (firstOccurrence sd r.start_date r.interval) ed ∧
      (d, r.category_id) ∉ lookup ∧
      e = { date := d, description := descRicorrente ++ r.name, amount := r.amount,
            category_id := r.category_id, prov := Provenance.recurring } := by
  unfold ruleEvents at h
  obtain ⟨d, hd, he⟩ := List.mem_filterMap.mp h
  by_cases hl : (d, r.category_id) ∈ lookup
  · rw [if_pos hl] at he
    exact absurd he (by simp)
  · rw [if_neg hl] at he
    exact ⟨d, hd, hl, (Option.some.injEq _ _).mp he |>.symm⟩

theorem recurringEvents_prov {fuel : Nat} {s : Workspace} {sd ed : Date}
    {filt : Option String} {e : CashEvent} (h : e ∈ recurringEvents fuel s sd ed filt) :
    e.prov = Provenance.recurring := by
  unfold recurringEvents at h
  obtain ⟨r, _, hr⟩ := List.mem_flatMap.mp h
  obtain ⟨d, _, _, rfl⟩ := ruleEvents_mem hr
  rfl

theorem recurringEvents_not_suppressed {fuel : Nat} {s : Workspace} {sd ed : Date}
    {filt : Option String} {e : CashEvent} (h : e ∈ recurringEvents fuel s sd ed filt) :
    (e.date, e.category_id) ∉ suppressionSet s sd ed filt := by
  unfold recurringEvents at h
  obtain ⟨r, _, hr⟩ := List.mem_flatMap.mp h
  obtain ⟨d, _, hl, rfl⟩ := ruleEvents_mem hr
  exact hl

theorem mem_get_future_events {fuel : Nat} {s : Workspace} {sd ed : Date}
    {filt : Option String} {e : CashEvent} :
    e ∈ get_future_events fuel s sd ed filt ↔
      e ∈ actualEvents s sd ed filt ∨ e ∈ plannedEvents s sd ed filt ∨
        e ∈ recurringEvents fuel s sd ed filt := by
  unfold get_future_events
  rw [List.mem_insertionSort]
  simp [List.mem_append, or_assoc]

theorem suppressionSet_of_actual_planned {s : Workspace} {sd ed : Date}
    {filt : Option String} {e : CashEvent}
    (h : e ∈ actualEvents s sd ed filt ∨ e ∈ plannedEvents s sd ed filt) :
    (e.date, e.category_id) ∈ suppressionSet s sd ed filt := by
  unfold suppressionSet
  refine List.mem_map.mpr ⟨e, ?_, rfl⟩
  rw [List.mem_append]
  exact h

theorem actualEvents_date_range {s : Workspace} {sd ed : Date} {filt : Option String}
    {e : CashEvent} (h : e ∈ actualEvents s sd ed filt) :
    Date.ble sd e.date = true ∧ Date.ble e.date ed = true := by
  unfold actualEvents at h
  obtain ⟨t, ht, rfl⟩ := List.mem_map.mp h
  obtain ⟨_, hcond⟩ := List.mem_filter.mp ht
  simp only [Bool.and_eq_true] at hcond
  exact ⟨hcond.1.2, hcond.2⟩

theorem plannedEvents_date_range {s : Workspace} {sd ed : Date} {filt : Option String}
    {e : CashEvent} (h : e ∈ plannedEvents s sd ed filt) :
    Date.ble sd e.date = true ∧ Date.ble e.date ed = true := by
  unfold plannedEvents at h
  obtain ⟨t, ht, rfl⟩ := List.mem_map.mp h
  obtain ⟨_, hcond⟩ := List.mem_filter.mp ht
  simp only [Bool.and_eq_true] at hcond
  exact ⟨hcond.1.2, hcond.2⟩

theorem recurringEvents_date_range {fuel : Nat} {s : Workspace} {sd ed : Date}
    {filt : Option String} {e : CashEvent} (h : e ∈ recurringEvents fuel s sd ed filt) :
    Date.ble sd e.date = true ∧ Date.ble e.date ed = true := by
  unfold recurringEvents at h
  obtain ⟨r, _, hr⟩ := List.mem_flatMap.mp h
  obtain ⟨d, hd, _, rfl⟩ := ruleEvents_mem hr
  obtain ⟨h1, h2⟩ := genOccurrences_le hd
  exact ⟨Date.ble_trans (firstOccurrence_ge sd r.start_date r.interval) h1, h2⟩

theorem get_future_events_date_range {fuel : Nat} {s : Workspace} {sd ed : Date}
    {filt : Option String} {e : CashEvent} (h : e ∈ get_future_events fuel s sd ed filt) :
    Date.ble sd e.date = true ∧ Date.ble e.date ed = true := by
  rcases mem_get_future_events.mp h with ha | hp | hr
  · exact actualEvents_date_range ha
  · exact plannedEvents_date_range hp
  · exact recurringEvents_date_range hr

theorem actualEvents_date_valid {s : Workspace} {sd ed : Date} {filt : Option String}
    {e : CashEvent} (hs : DatesValid s) (h : e ∈ actualEvents s sd ed filt) :
    e.date.Valid := by
  unfold actualEvents at h
  obtain ⟨t, ht, rfl⟩ := List.mem_map.mp h
  exact hs.1 t (List.mem_filter.mp ht).1

theorem plannedEvents_date_valid {s : Workspace} {sd ed : Date} {filt : Option String}
    {e : CashEvent} (hs : DatesValid s) (h : e ∈ plannedEvents s sd ed filt) :
    e.date.Valid := by
  unfold plannedEvents at h
  obtain ⟨t, ht, rfl⟩ := List.mem_map.mp h
  exact hs.2.1 t (List.mem_filter.mp ht).1

theorem recurringEvents_date_valid {fuel : Nat} {s : Workspace} {sd ed : Date}
    {filt : Option String} {e : CashEvent} (hsd : sd.Valid) (hs : DatesValid s)
    (h : e ∈ recurringEvents fuel s sd ed filt) : e.date.Valid := by
  unfold recurringEvents at h
  obtain ⟨r, hrmem, hr⟩ := List.mem_flatMap.mp h
  obtain ⟨d, hd, _, rfl⟩ := ruleEvents_mem hr
  have hrv : r.start_date.Valid := by
    refine hs.2.2 r ?_
    unfold filteredRules at hrmem
    exact (List.mem_filter.mp hrmem).1
  exact genOccurrences_valid (firstOccurrence_valid r.interval hsd hrv) hd

theorem get_future_events_date_valid {fuel : Nat} {s : Workspace} {sd ed : Date}
    {filt : Option String} {e : CashEvent} (hsd : sd.Valid) (hs : DatesValid s)
    (h : e ∈ get_future_events fuel s sd ed filt) : e.date.Valid := by
  rcases mem_get_future_events.mp h with ha | hp | hr
  · exact actualEvents_date_valid hs ha
  · exact plannedEvents_date_valid hs hp
  · exact recurringEvents_date_valid hsd hs hr

theorem length_cumsumFrom (acc : ℚ) (l : List ℚ) :
    (cumsumFrom acc l).length = l.length := by
  induction l generalizing acc with
  | nil => rfl
  | cons x xs ih => simp [cumsumFrom, ih]

theorem cumsumFrom_getD (acc : ℚ) (l : List ℚ) (k : Nat) (h : k < l.length) :
    (cumsumFrom acc l).getD k 0 = acc + (l.take (k + 1)).sum := by
  induction l generalizing acc k with
  | nil => simp at h
  | cons x xs ih =>
    cases k with
    | zero => simp [cumsumFrom]
    | succ k2 =>
      have h2 : k2 < xs.length := by simpa using h
      have := ih (acc + x) k2 h2
      simp only [cumsumFrom, List.getD_cons_succ, List.take_succ_cons, List.sum_cons]
      rw [this]
      ring

theorem sum_filter_or_disjoint {α : Type} (f : α → ℚ) (p q : α → Bool) (l : List α)
    (h : ∀ x ∈ l, ¬(p x = true ∧ q x = true)) :
    ((l.filter fun x => p x || q x).map f).sum =
      ((l.filter p).map f).sum + ((l.filter q).map f).sum := by
  induction l with
  | nil => simp
  | cons x xs ih =>
    have hx := h x (List.mem_cons_self x xs)
    have ihx : ((xs.filter fun x => p x || q x).map f).sum =
        ((xs.filter p).map f).sum + ((xs.filter q).map f).sum :=
      ih fun y hy => h y (List.mem_cons_of_mem x hy)
    by_cases hp : p x = true
    · have hq : q x = false := Bool.eq_false_iff.mpr fun ht => hx ⟨hp, ht⟩
      simp only [List.filter_cons, hp, hq]
      simp only [Bool.or_false, if_true, Bool.false_eq_true, if_false,
        List.map_cons, List.sum_cons, ihx]
      ring
    · have hp' : p x = false := Bool.eq_false_iff.mpr hp
      by_cases hq : q x = true
      · simp only [List.filter_cons, hp', hq]
        simp only [Bool.false_or, if_true, Bool.false_eq_true, if_false,
          List.map_cons, List.sum_cons, ihx]
        ring
      · have hq' : q x = false := Bool.eq_false_iff.mpr hq
        simp only [List.filter_cons, hp', hq']
        simp only [Bool.or_self, Bool.false_eq_true, if_false]
        exact ihx

theorem sum_range_dayDelta (evts : List CashEvent) (sd : Date) (hsd : sd.Valid)
    (hall : ∀ e ∈ evts, Date.ble sd e.date = true ∧ e.date.Valid) (k : Nat) :
    (((List.range (k + 1)).map fun j => dayDelta evts (Date.addDays j sd)).sum) =
      ((evts.filter fun e => Date.ble e.date (Date.addDays k sd)).map CashEvent.amount).sum := by
  induction k with
  | zero =>
    have h0 : List.range 1 = [0] := rfl
    rw [h0]
    simp only [List.map_cons, List.map_nil, List.sum_cons, List.sum_nil, add_zero]
    unfold dayDelta
    congr 1
    apply congrArg
    apply List.filter_congr
    intro e he
    show (e.date == Date.addDays 0 sd) = Date.ble e.date (Date.addDays 0 sd)
    have h1 := (hall e he).1
    show (e.date == sd) = Date.ble e.date sd
    apply Bool.eq_iff_iff.mpr
    constructor
    · intro hbeq
      have : e.date = sd := beq_iff_eq.mp hbeq
      rw [this]
      exact Date.ble_refl sd
    · intro hble
      exact beq_iff_eq.mpr (Date.ble_antisymm hble h1)
  | succ k2 ih =>
    have hsplit :
        (evts.filter fun e => Date.ble e.date (Date.addDays (k2 + 1) sd)) =
          evts.filter fun e =>
            Date.ble e.date (Date.addDays k2 sd) || (e.date == Date.addDays (k2 + 1) sd) := by
      apply List.filter_congr
      intro e he
      obtain ⟨hge, hv⟩ := hall e he
      have hvk : (Date.addDays k2 sd).Valid := addDays_valid k2 hsd
      have hvk1 : (Date.addDays (k2 + 1) sd).Valid := addDays_valid (k2 + 1) hsd
      have hok : (Date.addDays k2 sd).toOrd = sd.toOrd + k2 := toOrd_addDays k2 hsd
      have hok1 : (Date.addDays (k2 + 1) sd).toOrd = sd.toOrd + (k2 + 1) :=
        toOrd_addDays (k2 + 1) hsd
      apply Bool.eq_iff_iff.mpr
      rw [Bool.or_eq_true, ble_iff_toOrd hv hvk1, ble_iff_toOrd hv hvk, beq_iff_eq]
      constructor
      · intro hle
        rcases Nat.lt_or_ge e.date.toOrd (sd.toOrd + (k2 + 1)) with hlt | hge2
        · left; omega
        · right
          exact toOrd_inj hv hvk1 (by omega)
      · intro hor
        rcases hor with hle | heq
        · omega
        · rw [heq]
    have hdisj : ∀ e ∈ evts,
        ¬(Date.ble e.date (Date.addDays k2 sd) = true ∧
          (e.date == Date.addDays (k2 + 1) sd) = true) := by
      intro e he ⟨hble, hbeq⟩
      obtain ⟨hge, hv⟩ := hall e he
      have hvk : (Date.addDays k2 sd).Valid := addDays_valid k2 hsd
      have hok : (Date.addDays k2 sd).toOrd = sd.toOrd + k2 := toOrd_addDays k2 hsd
      have hok1 : (Date.addDays (k2 + 1) sd).toOrd = sd.toOrd + (k2 + 1) :=
        toOrd_addDays (k2 + 1) hsd
      have heq : e.date = Date.addDays (k2 + 1) sd := beq_iff_eq.mp hbeq
      rw [ble_iff_toOrd hv hvk] at hble
      rw [heq] at hble
      omega
    rw [List.range_succ, List.map_append, List.sum_append, ih, hsplit,
      sum_filter_or_disjoint CashEvent.amount _ _ evts hdisj]
    simp [dayDelta]

theorem length_dateRange (sd ed : Date) :
    (dateRange sd ed).length = ed.toOrd + 1 - sd.toOrd := by
  simp [dateRange]

/-- C6: Balance composition. For every day of the planner horizon (the
`k`-th day, date `sd + k` days), the simulated balance equals the initial
balance `get_balance_before_date` (standard-account opening balances under
the optional filter, plus pre-start actual amounts on standard accounts
under the same filter) plus the sum of the amounts of all projected events
dated on or before that day. -/
theorem c6_balance_composition (fuel : Nat) (s : Workspace) (sd ed : Date)
    (filt : Option String) (k : Nat) (hsd : sd.Valid) (hs : DatesValid s)
    (hk : k < (dateRange sd ed).length) :
    (planner_curve fuel s sd ed filt).getD k 0 =
      get_balance_before_date s sd filt +
        (((get_future_events fuel s sd ed filt).filter fun e =>
            Date.ble e.date (Date.addDays k sd)).map CashEvent.amount).sum := by
  set evts := get_future_events fuel s sd ed filt with hevts
  have hall : ∀ e ∈ evts, Date.ble sd e.date = true ∧ e.date.Valid := by
    intro e he
    exact ⟨(get_future_events_date_range he).1, get_future_events_date_valid hsd hs he⟩
  unfold planner_curve
  rw [← hevts]
  have hlen : k < ((dateRange sd ed).map (dayDelta evts)).length := by
    simpa using hk
  rw [cumsumFrom_getD _ _ k hlen]
  congr 1
  have htake : ((dateRange sd ed).map (dayDelta evts)).take (k + 1) =
      ((List.range (k + 1)).map fun j => dayDelta evts (Date.addDays j sd)) := by
    rw [← List.map_take]
    unfold dateRange
    rw [← List.map_take, List.take_range]
    have hmin : min (k + 1) (ed.toOrd + 1 - sd.toOrd) = k + 1 := by
      rw [length_dateRange] at hk
      omega
    rw [hmin, List.map_map]
    rfl
  rw [htake]
  exact sum_range_dayDelta evts sd hsd hall k

theorem scanDays_some {safety g : ℚ} {curve : List ℚ} {steps d d' : Nat} {c' : List ℚ}
    (h : scanDays safety g curve steps d = some (d', c')) :
    d ≤ d' ∧ d' < d + steps ∧ c' = addFrom d' g curve ∧ safety ≤ minFrom d' c' := by
  induction steps generalizing d with
  | zero => simp [scanDays] at h
  | succ k ih =>
    rw [scanDays] at h
    split at h
    · rename_i hcond
      obtain ⟨rfl, rfl⟩ := Prod.mk.injEq .. ▸ (Option.some.injEq _ _).mp h
      exact ⟨Nat.le_refl d, by omega, rfl, hcond⟩
    · obtain ⟨h1, h2, h3, h4⟩ := ih h
      exact ⟨by omega, by omega, h3, h4⟩

theorem scanDays_none {safety g : ℚ} {curve : List ℚ} {steps d : Nat}
    (h : scanDays safety g curve steps d = none) :
    ∀ j, d ≤ j → j < d + steps → minFrom j (addFrom j g curve) < safety := by
  induction steps generalizing d with
  | zero => intro j h1 h2; omega
  | succ k ih =>
    rw [scanDays] at h
    split at h
    · exact absurd h (by simp)
    · rename_i hcond
      intro j h1 h2
      rcases Nat.eq_or_lt_of_le h1 with rfl | hlt
      · exact lt_of_not_le hcond
      · exact ih h j hlt (by omega)

theorem findDay_some {safety g : ℚ} {curve : List ℚ} {d : Nat} {c' : List ℚ}
    (h : findDay safety g curve = some (d, c')) :
    d < curve.length ∧ c' = addFrom d g curve ∧ safety ≤ minFrom d c' := by
  obtain ⟨h1, h2, h3, h4⟩ := scanDays_some h
  exact ⟨by omega, h3, h4⟩

theorem findDay_none {safety g : ℚ} {curve : List ℚ}
    (h : findDay safety g curve = none) :
    ∀ j, j < curve.length → minFrom j (addFrom j g curve) < safety := by
  intro j hj
  exact scanDays_none h j (Nat.zero_le j) (by omega)

/-- C7: Goal safety. Whatever result the scheduler reports for the first
goal of its queue: if it is feasible with scheduled day `d`, then `d` lies
in the horizon, the working curve with the goal's amount added from day `d`
on stays at or above the safety floor from `d` to the horizon end, and the
remaining goals are scheduled against that updated curve (the hypothetical
curve permanently replaces the working one); if it is infeasible, no day of
the horizon satisfies the constraint and the remaining goals are scheduled
against the unchanged working curve. -/
theorem c7_goal_safety (safety : ℚ) (w : List ℚ) (g : GoalRow) (gs : List GoalRow)
    (res : GoalResult)
    (h : (scheduleGoals safety w (g :: gs)).1.head? = some res) :
    match res.outcome with
    | some d =>
        d < w.length ∧ safety ≤ minFrom d (addFrom d g.amount w) ∧
          scheduleGoals safety w (g :: gs) =
            (res :: (scheduleGoals safety (addFrom d g.amount w) gs).1,
              (scheduleGoals safety (addFrom d g.amount w) gs).2)
    | none =>
        (∀ d, d < w.length → minFrom d (addFrom d g.amount w) < safety) ∧
          scheduleGoals safety w (g :: gs) =
            (res :: (scheduleGoals safety w gs).1, (scheduleGoals safety w gs).2) := by
  cases hf : findDay safety g.amount w with
  | some pair =>
    obtain ⟨d0, c0⟩ := pair
    obtain ⟨hlen, hc0, hmin⟩ := findDay_some hf
    have hexp : scheduleGoals safety w (g :: gs) =
        ({ description := g.description, outcome := some d0 } ::
            (scheduleGoals safety c0 gs).1, (scheduleGoals safety c0 gs).2) := by
      rw [scheduleGoals, hf]
    rw [hexp] at h
    simp only [List.head?_cons, Option.some.injEq] at h
    subst h
    simp only []
    subst hc0
    exact ⟨hlen, hmin, hexp⟩
  | none =>
    have hexp : scheduleGoals safety w (g :: gs) =
        ({ description := g.description, outcome := none } ::
            (scheduleGoals safety w gs).1, (scheduleGoals safety w gs).2) := by
      rw [scheduleGoals, hf]
    rw [hexp] at h
    simp only [List.head?_cons, Option.some.injEq] at h
    subst h
    simp only []
    exact ⟨findDay_none hf, hexp⟩

/-- C5: No double counting. If the projected event sequence contains an
actual or planned event at some `(date, category)` pair, then it contains
no recurring event at that same pair. -/
theorem c5_no_double_counting (fuel : Nat) (s : Workspace) (sd ed : Date)
    (filt : Option String) (d : Date) (c : Nat)
    (h : ∃ e ∈ get_future_events fuel s sd ed filt,
      (e.prov = Provenance.actual ∨ e.prov = Provenance.planned) ∧
        e.date = d ∧ e.category_id = c) :
    ∀ e ∈ get_future_events fuel s sd ed filt,
      e.prov = Provenance.recurring → ¬(e.date = d ∧ e.category_id = c) := by
  obtain ⟨e0, he0, hprov0, hd0, hc0⟩ := h
  have hsup : (d, c) ∈ suppressionSet s sd ed filt := by
    rcases mem_get_future_events.mp he0 with ha | hp | hr
    · have hm : (e0.date, e0.category_id) ∈ suppressionSet s sd ed filt :=
        suppressionSet_of_actual_planned (Or.inl ha)
      rw [hd0, hc0] at hm
      exact hm
    · have hm : (e0.date, e0.category_id) ∈ suppressionSet s sd ed filt :=
        suppressionSet_of_actual_planned (Or.inr hp)
      rw [hd0, hc0] at hm
      exact hm
    · have := recurringEvents_prov hr
      rcases hprov0 with h1 | h1 <;> rw [this] at h1 <;> exact absurd h1 (by simp)
  intro e he hrec hdc
  obtain ⟨hde, hce⟩ := hdc
  rcases mem_get_future_events.mp he with ha | hp | hr
  · have := actualEvents_prov ha
    rw [this] at hrec
    exact absurd hrec (by simp)
  · have := plannedEvents_prov hp
    rw [this] at hrec
    exact absurd hrec (by simp)
  · have hnsup := recurringEvents_not_suppressed hr
    rw [hde, hce] at hnsup
    exact hnsup hsup

theorem map_sum_ge_one {α : Type} (h : α → ℕ) (l : List α) (i : Nat) (hi : i < l.length) :
    h (l.get ⟨i, hi⟩) ≤ (l.map h).sum := by
  induction l generalizing i with
  | nil => simp at hi
  | cons x xs ih =>
    cases i with
    | zero => simp
    | succ i2 =>
      have hi2 : i2 < xs.length := by simpa using hi
      have := ih i2 hi2
      simp only [List.get_cons_succ, List.map_cons, List.sum_cons]
      omega

theorem map_sum_ge_two {α : Type} (h : α → ℕ) (l : List α) (i j : Nat)
    (hi : i < l.length) (hj : j < l.length) (hne : i ≠ j) :
    h (l.get ⟨i, hi⟩) + h (l.get ⟨j, hj⟩) ≤ (l.map h).sum := by
  induction l generalizing i j with
  | nil => simp at hi
  | cons x xs ih =>
    cases i with
    | zero =>
      cases j with
      | zero => omega
      | succ j2 =>
        have hj2 : j2 < xs.length := by simpa using hj
        have hone := map_sum_ge_one h xs j2 hj2
        show h x + h (xs.get ⟨j2, hj2⟩) ≤ h x + (xs.map h).sum
        omega
    | succ i2 =>
      cases j with
      | zero =>
        have hi2 : i2 < xs.length := by simpa using hi
        have hone := map_sum_ge_one h xs i2 hi2
        show h (xs.get ⟨i2, hi2⟩) + h x ≤ h x + (xs.map h).sum
        omega
      | succ j2 =>
        have hi2 : i2 < xs.length := by simpa using hi
        have hj2 : j2 < xs.length := by simpa using hj
        have hih := ih i2 j2 hi2 hj2 (by omega)
        show h (xs.get ⟨i2, hi2⟩) + h (xs.get ⟨j2, hj2⟩) ≤ h x + (xs.map h).sum
        omega

theorem countP_ruleEvents_pos {fuel : Nat} {lookup : List (Date × Nat)} {sd ed : Date}
    {r : RecRow} {d : Date}
    (hd : d ∈ genOccurrences fuel r.interval (firstOccurrence sd r.start_date r.interval) ed)
    (hsup : (d, r.category_id) ∉ lookup) :
    1 ≤ (ruleEvents fuel lookup sd ed r).countP fun e =>
      decide (e.prov = Provenance.recurring) && (e.date == d) &&
        (e.category_id == r.category_id) := by
  have hmem : CashEvent.mk d (descRicorrente ++ r.name) r.amount r.category_id
      Provenance.recurring ∈ ruleEvents fuel lookup sd ed r := by
    unfold ruleEvents
    refine List.mem_filterMap.mpr ⟨d, hd, ?_⟩
    rw [if_neg hsup]
  have hpos : 0 < (ruleEvents fuel lookup sd ed r).countP fun e : CashEvent =>
      decide (e.prov = Provenance.recurring) && (e.date == d) &&
        (e.category_id == r.category_id) :=
    List.countP_pos.mpr ⟨_, hmem, by simp⟩
  omega

/-- C10: The suppression set is built only from actual and planned events
and never grows while recurring occurrences are generated: when two
distinct recurring rules (among the rules the projection considers) share a
category and each generates the same occurrence date, and no actual or
planned event occupies that `(date, category)`, the projected sequence
contains at least two recurring events at that `(date, category)` — one
recurring occurrence never suppresses another. -/
theorem c10_no_recurring_self_suppression (fuel : Nat) (s : Workspace) (sd ed : Date)
    (filt : Option String) (i j : Nat)
    (hi : i < (filteredRules s filt).length) (hj : j < (filteredRules s filt).length)
    (hne : i ≠ j) (d : Date)
    (hdi : d ∈ genOccurrences fuel ((filteredRules s filt).get ⟨i, hi⟩).interval
      (firstOccurrence sd ((filteredRules s filt).get ⟨i, hi⟩).start_date
        ((filteredRules s filt).get ⟨i, hi⟩).interval) ed)
    (hdj : d ∈ genOccurrences fuel ((filteredRules s filt).get ⟨j, hj⟩).interval
      (firstOccurrence sd ((filteredRules s filt).get ⟨j, hj⟩).start_date
        ((filteredRules s filt).get ⟨j, hj⟩).interval) ed)
    (hcat : ((filteredRules s filt).get ⟨j, hj⟩).category_id =
      ((filteredRules s filt).get ⟨i, hi⟩).category_id)
    (hsup : (d, ((filteredRules s filt).get ⟨i, hi⟩).category_id) ∉
      suppressionSet s sd ed filt) :
    2 ≤ (get_future_events fuel s sd ed filt).countP fun e =>
      decide (e.prov = Provenance.recurring) && (e.date == d) &&
        (e.category_id == ((filteredRules s filt).get ⟨i, hi⟩).category_id) := by
  set p : CashEvent → Bool := fun e =>
    decide (e.prov = Provenance.recurring) && (e.date == d) &&
      (e.category_id == ((filteredRules s filt).get ⟨i, hi⟩).category_id) with hp
  unfold get_future_events
  rw [(List.perm_insertionSort _ _).countP_eq]
  rw [List.countP_append, List.countP_append]
  have hrec : 2 ≤ (recurringEvents fuel s sd ed filt).countP p := by
    unfold recurringEvents
    rw [List.countP_flatMap]
    have h1 : 1 ≤ (ruleEvents fuel (suppressionSet s sd ed filt) sd ed
        ((filteredRules s filt).get ⟨i, hi⟩)).countP p :=
      countP_ruleEvents_pos hdi hsup
    have h2 : 1 ≤ (ruleEvents fuel (suppressionSet s sd ed filt) sd ed
        ((filteredRules s filt).get ⟨j, hj⟩)).countP p := by
      have hsupj : (d, ((filteredRules s filt).get ⟨j, hj⟩).category_id) ∉
          suppressionSet s sd ed filt := by
        rw [hcat]
        exact hsup
      have := countP_ruleEvents_pos hdj hsupj
      have hpe : (fun e : CashEvent =>
          decide (e.prov = Provenance.recurring) && (e.date == d) &&
            (e.category_id == ((filteredRules s filt).get ⟨j, hj⟩).category_id)) = p := by
        rw [hp, hcat]
      rw [hpe] at this
      exact this
    have hsum := map_sum_ge_two
      (fun r => (ruleEvents fuel (suppressionSet s sd ed filt) sd ed r).countP p)
      (filteredRules s filt) i j hi hj hne
    dsimp only at hsum
    have hcomp : ((filteredRules s filt).map
        (List.countP p ∘ ruleEvents fuel (suppressionSet s sd ed filt) sd ed)).sum =
        ((filteredRules s filt).map
          fun r => (ruleEvents fuel (suppressionSet s sd ed filt) sd ed r).countP p).sum :=
      rfl
    rw [hcomp]
    omega
  omega

/-- C1 counterexample: on a workspace with pending goals of amounts −100
and −500, `get_goals` (`ORDER BY amount ASC` over negative stored amounts)
returns the −500 goal first, and the planner therefore attempts the goal
with the larger absolute amount first — refuting the claimed
smallest-magnitude-first order. -/
theorem c1_goal_order_counterexample :
    (get_goals wsC1).map GoalRow.amount = [-500, -100] ∧
    (runPlanner 40 wsC1 ⟨2024, 1, 1⟩ ⟨2024, 1, 5⟩ none 0).1.map GoalResult.description =
      ["car", "tv"] ∧
    |(-500 : ℚ)| > |(-100 : ℚ)| := by
  refine ⟨by decide, by decide, by decide⟩

/-- C1 amended: pending goals are processed in ascending order of their
signed stored amount; because `add_goal` stores `-abs(amount)`, every
stored amount is nonpositive and this order is descending in absolute
amount — largest magnitude first. -/
theorem c1_goal_order_amended (s : Workspace) (gid : Nat) (ds : String) (a : ℚ)
    (h : ∀ g ∈ s.goals, g.amount ≤ 0) :
    List.Pairwise
      (fun g1 g2 : GoalRow => g1.amount ≤ g2.amount ∧ |g2.amount| ≤ |g1.amount|)
      (get_goals s) ∧
    (add_goal s gid ds a).goals.map GoalRow.amount =
      s.goals.map GoalRow.amount ++ [-|a|] := by
  constructor
  · haveI : IsTotal GoalRow (fun g1 g2 : GoalRow => g1.amount ≤ g2.amount) :=
      ⟨fun g1 g2 => le_total g1.amount g2.amount⟩
    haveI : IsTrans GoalRow (fun g1 g2 : GoalRow => g1.amount ≤ g2.amount) :=
      ⟨fun g1 g2 g3 h1 h2 => le_trans h1 h2⟩
    have hsorted := List.sorted_insertionSort
      (fun g1 g2 : GoalRow => g1.amount ≤ g2.amount)
      (s.goals.filter fun g => g.status_pending)
    refine List.Pairwise.imp_of_mem ?_ hsorted
    intro g1 g2 hm1 hm2 hle
    have hg2 : g2.amount ≤ 0 := by
      have : g2 ∈ s.goals.filter fun g => g.status_pending :=
        (List.mem_insertionSort _).mp hm2
      exact h g2 (List.mem_filter.mp this).1
    refine ⟨hle, ?_⟩
    rw [abs_of_nonpos hg2, abs_of_nonpos (le_trans hle hg2)]
    exact neg_le_neg hle
  · simp [add_goal]

/-- C1 witness: the amended order theorem applied to the concrete
two-goal workspace. -/
theorem c1_goal_order_witness :
    List.Pairwise
      (fun g1 g2 : GoalRow => g1.amount ≤ g2.amount ∧ |g2.amount| ≤ |g1.amount|)
      (get_goals wsC1) ∧
    (add_goal wsC1 3 "bike" 7).goals.map GoalRow.amount =
      wsC1.goals.map GoalRow.amount ++ [-|(7 : ℚ)|] :=
  c1_goal_order_amended wsC1 3 "bike" 7 (by decide)

/-- C2 code evaluation: a weekly rule anchored on Monday 2024-01-01,
projected over [2024-01-03, 2024-01-20], produces occurrences on
2024-01-05, -12, -19 — all Fridays (weekday 4), not the rule's Monday
(weekday 0) — although 2024-01-08 is the earliest date on or after the
projection start with the rule's weekday. The code's weekday offset
`(start.weekday() - rule.weekday() + 7) % 7` has the sign of the
difference reversed. -/
theorem c2_weekly_alignment_code_eval :
    (get_future_events 60 wsC2 ⟨2024, 1, 3⟩ ⟨2024, 1, 20⟩ none).map CashEvent.date =
      [⟨2024, 1, 5⟩, ⟨2024, 1, 12⟩, ⟨2024, 1, 19⟩] ∧
    Date.weekday ⟨2024, 1, 1⟩ = 0 ∧
    Date.weekday ⟨2024, 1, 5⟩ = 4 ∧
    Date.weekday ⟨2024, 1, 8⟩ = 0 ∧
    Date.ble ⟨2024, 1, 3⟩ ⟨2024, 1, 8⟩ = true ∧
    Date.blt ⟨2024, 1, 1⟩ ⟨2024, 1, 3⟩ = true := by
  refine ⟨by decide, by decide, by decide, by decide, by decide, by decide⟩

/-- C3 counterexample: a monthly rule anchored on day 31 (start
2023-12-31), projected over [2024-02-01, 2024-03-31], occurs on 2024-02-29
(clamped) and then on 2024-03-29 — not on 2024-03-31, although March has a
day 31: after a clamp the day of month does not return to the anchor,
because each step adds one month to the previous (clamped) occurrence. -/
theorem c3_monthly_clamp_counterexample :
    (get_future_events 60 wsC3 ⟨2024, 2, 1⟩ ⟨2024, 3, 31⟩ none).map CashEvent.date =
      [⟨2024, 2, 29⟩, ⟨2024, 3, 29⟩] ∧
    daysInMonth 2024 3 = 31 ∧
    (⟨2024, 3, 31⟩ : Date) ∉
      (get_future_events 60 wsC3 ⟨2024, 2, 1⟩ ⟨2024, 3, 31⟩ none).map CashEvent.date := by
  refine ⟨by decide, by decide, by decide⟩

/-- C3 amended: for a monthly rule starting before the projection start,
the first occurrence is the rule's day-of-month clamped into the start
month (last valid day when the month is shorter), rolled forward one
clamped month if still before the start; each subsequent occurrence is
exactly one calendar month after the previous one, keeping its day when the
next month is long enough and clamping to that month's last day otherwise —
so after a clamp the day of month stays lowered instead of returning to the
anchor; and every occurrence is at most the projection end. -/
theorem c3_monthly_step_amended (fuel : Nat) (sd rs ed : Date)
    (hlt : Date.blt rs sd = true) :
    firstOccurrence sd rs RecInterval.monthly = monthlyFirstSpec sd rs ∧
    List.Chain' (fun a b => b = a.addMonthClamp)
      (genOccurrences fuel RecInterval.monthly
        (firstOccurrence sd rs RecInterval.monthly) ed) ∧
    ∀ x ∈ genOccurrences fuel RecInterval.monthly
        (firstOccurrence sd rs RecInterval.monthly) ed,
      Date.ble sd x = true ∧ Date.ble x ed = true := by
  refine ⟨?_, ?_, ?_⟩
  · unfold firstOccurrence
    rw [if_pos hlt]
    show monthlyFirst sd rs = monthlyFirstSpec sd rs
    unfold monthlyFirst monthlyFirstSpec monthlyFirstCand
    split
    · rename_i hble
      rw [Nat.ble_eq] at hble
      rw [Nat.min_eq_left hble]
    · rename_i hble
      rw [Nat.ble_eq] at hble
      rw [Nat.min_eq_right (by omega)]
  · exact genOccurrences_chain fuel RecInterval.monthly _ ed
  · intro x hx
    obtain ⟨h1, h2⟩ := genOccurrences_le hx
    exact ⟨Date.ble_trans (firstOccurrence_ge sd rs RecInterval.monthly) h1, h2⟩

/-- C3 witness: the amended monthly-step theorem applied to the concrete
day-31 rule of the counterexample. -/
theorem c3_monthly_step_witness :
    firstOccurrence ⟨2024, 2, 1⟩ ⟨2023, 12, 31⟩ RecInterval.monthly =
      monthlyFirstSpec ⟨2024, 2, 1⟩ ⟨2023, 12, 31⟩ ∧
    List.Chain' (fun a b => b = a.addMonthClamp)
      (genOccurrences 60 RecInterval.monthly
        (firstOccurrence ⟨2024, 2, 1⟩ ⟨2023, 12, 31⟩ RecInterval.monthly) ⟨2024, 3, 31⟩) ∧
    ∀ x ∈ genOccurrences 60 RecInterval.monthly
        (firstOccurrence ⟨2024, 2, 1⟩ ⟨2023, 12, 31⟩ RecInterval.monthly) ⟨2024, 3, 31⟩,
      Date.ble ⟨2024, 2, 1⟩ x = true ∧ Date.ble x ⟨2024, 3, 31⟩ = true :=
  c3_monthly_step_amended 60 ⟨2024, 2, 1⟩ ⟨2023, 12, 31⟩ ⟨2024, 3, 31⟩ (by decide)

/-- C4 counterexample: with the default tolerances, a planned transaction
of amount 100 dated 2024-05-10 IS matched by a candidate of amount 116 on
the same date, contrary to the claim that 116 is out of tolerance: the
query computes the ±15% band on the candidate amount (116), and 100 lies
inside [98.6, 133.4]. -/
theorem c4_tolerance_counterexample :
    find_best_matching_planned_tx wsC4 ⟨2024, 5, 10⟩ 116 7 (15 / 100) =
      some { id := 1, plan_date := ⟨2024, 5, 10⟩, description := "insurance",
             amount := 100 } := by
  decide

/-- C4 amended: with the default tolerances (7 days, 15% of the candidate
amount), the planned transaction of amount 100 is matched by candidates of
amount 114 and 116 but not by a candidate of amount 118 (100 lies outside
[100.3, 135.7]); and a candidate dated 7 days after the planned date
matches while one dated 8 days after does not. -/
theorem c4_tolerance_amended :
    find_best_matching_planned_tx wsC4 ⟨2024, 5, 10⟩ 114 7 (15 / 100) =
      some { id := 1, plan_date := ⟨2024, 5, 10⟩, description := "insurance",
             amount := 100 } ∧
    find_best_matching_planned_tx wsC4 ⟨2024, 5, 10⟩ 116 7 (15 / 100) =
      some { id := 1, plan_date := ⟨2024, 5, 10⟩, description := "insurance",
             amount := 100 } ∧
    find_best_matching_planned_tx wsC4 ⟨2024, 5, 10⟩ 118 7 (15 / 100) = none ∧
    find_best_matching_planned_tx wsC4 ⟨2024, 5, 17⟩ 100 7 (15 / 100) =
      some { id := 1, plan_date := ⟨2024, 5, 10⟩, description := "insurance",
             amount := 100 } ∧
    find_best_matching_planned_tx wsC4 ⟨2024, 5, 18⟩ 100 7 (15 / 100) = none := by
  refine ⟨by decide, by decide, by decide, by decide, by decide⟩

/-- C5 witness: the no-double-counting theorem applied to the concrete
workspace in which the planned entry on 2024-01-02 suppresses the daily
rule's occurrence there, instantiated at the rule's (kept) occurrence on
2024-01-03. -/
theorem c5_no_double_counting_witness :
    ¬((⟨2024, 1, 3⟩ : Date) = ⟨2024, 1, 2⟩ ∧ (7 : Nat) = 7) :=
  c5_no_double_counting 10 wsC5 ⟨2024, 1, 1⟩ ⟨2024, 1, 3⟩ none ⟨2024, 1, 2⟩ 7
    ⟨{ date := ⟨2024, 1, 2⟩, description := descPianificato ++ "p", amount := 5,
       category_id := 7, prov := Provenance.planned }, by decide, by decide⟩
    { date := ⟨2024, 1, 3⟩, description := descRicorrente ++ "r", amount := -3,
      category_id := 7, prov := Provenance.recurring }
    (by decide) rfl

/-- C6 witness: the balance-composition theorem applied to the concrete
workspace, at the third day of the horizon. -/
theorem c6_balance_composition_witness :
    (planner_curve 5 wsC6 ⟨2024, 1, 1⟩ ⟨2024, 1, 3⟩ none).getD 2 0 =
      get_balance_before_date wsC6 ⟨2024, 1, 1⟩ none +
        (((get_future_events 5 wsC6 ⟨2024, 1, 1⟩ ⟨2024, 1, 3⟩ none).filter fun e =>
            Date.ble e.date (Date.addDays 2 ⟨2024, 1, 1⟩)).map CashEvent.amount).sum :=
  c6_balance_composition 5 wsC6 ⟨2024, 1, 1⟩ ⟨2024, 1, 3⟩ none 2 (by decide) (by decide)
    (by decide)

/-- C7 witness: the goal-safety theorem applied to a one-day horizon with
balance 5, safety floor 0 and a single goal of amount −1, which is
scheduled on day 0. -/
theorem c7_goal_safety_witness :
    0 < [(5 : ℚ)].length ∧
    (0 : ℚ) ≤ minFrom 0 (addFrom 0 (-1) [(5 : ℚ)]) ∧
    scheduleGoals 0 [(5 : ℚ)]
        [{ id := 1, description := "tv", amount := -1, status_pending := true }] =
      ({ description := "tv", outcome := some 0 } ::
          (scheduleGoals 0 (addFrom 0 (-1) [(5 : ℚ)]) []).1,
        (scheduleGoals 0 (addFrom 0 (-1) [(5 : ℚ)]) []).2) :=
  c7_goal_safety 0 [(5 : ℚ)]
    { id := 1, description := "tv", amount := -1, status_pending := true } []
    { description := "tv", outcome := some 0 } (by decide)

theorem dayGaps_length : ∀ l : List Date, (dayGaps l).length = l.length - 1
  | [] => rfl
  | [_] => rfl
  | a :: b :: rest => by
    have := dayGaps_length (b :: rest)
    simp only [dayGaps, List.length_cons] at this ⊢
    omega

theorem countP_disjoint_add_le {α : Type} (p q : α → Bool) (l : List α)
    (h : ∀ x ∈ l, ¬(p x = true ∧ q x = true)) :
    l.countP p + l.countP q ≤ l.length := by
  induction l with
  | nil => simp
  | cons x xs ih =>
    have hx := h x (List.mem_cons_self x xs)
    have ihx := ih fun y hy => h y (List.mem_cons_of_mem x hy)
    rw [List.countP_cons, List.countP_cons, List.length_cons]
    by_cases hp : p x = true
    · have hq : q x = false := Bool.eq_false_iff.mpr fun ht => hx ⟨hp, ht⟩
      simp only [hp, hq, if_true, Bool.false_eq_true, if_false]
      omega
    · have hp' : p x = false := Bool.eq_false_iff.mpr hp
      simp only [hp', Bool.false_eq_true, if_false]
      split <;> omega

/-- C8: Recurrence classification. A transaction group yields an interval
only when it has at least 3 transactions; writing `n` for the number of
consecutive day gaps of the date-sorted group (one less than the group
size), the group is classified monthly exactly when at least 80% of the
gaps lie in [28, 32] days, weekly exactly when at least 80% lie in [6, 8]
days (the two ranges are disjoint, so at most one test can reach 80%), and
is rejected otherwise; in particular the group with gaps [30, 30, 31] is
monthly and the group with gaps [5, 40, 2] is rejected. -/
theorem c8_recurrence_classification (dates : List Date) :
    (classify_group dates ≠ none → 3 ≤ dates.length) ∧
    (classify_group dates = some RecInterval.monthly ↔
      3 ≤ dates.length ∧
        4 * (dates.length - 1) ≤
          5 * ((dayGaps (List.insertionSort (fun a b : Date => Date.ble a b = true)
              dates)).countP fun g => decide (28 ≤ g) && decide (g ≤ 32))) ∧
    (classify_group dates = some RecInterval.weekly ↔
      3 ≤ dates.length ∧
        4 * (dates.length - 1) ≤
          5 * ((dayGaps (List.insertionSort (fun a b : Date => Date.ble a b = true)
              dates)).countP fun g => decide (6 ≤ g) && decide (g ≤ 8))) ∧
    classify_group datesMonthlyC8 = some RecInterval.monthly ∧
    classify_group datesRejectC8 = none := by
  set gaps := dayGaps (List.insertionSort (fun a b : Date => Date.ble a b = true) dates)
    with hgaps
  set cM := gaps.countP fun g => decide (28 ≤ g) && decide (g ≤ 32) with hcM
  set cW := gaps.countP fun g => decide (6 ≤ g) && decide (g ≤ 8) with hcW
  have hglen : gaps.length = dates.length - 1 := by
    rw [hgaps, dayGaps_length, (List.perm_insertionSort _ _).length_eq]
  have hdisj : cM + cW ≤ dates.length - 1 := by
    rw [hcM, hcW, ← hglen]
    apply countP_disjoint_add_le
    intro g _ hpq
    obtain ⟨hp, hq⟩ := hpq
    simp only [Bool.and_eq_true, decide_eq_true_eq] at hp hq
    omega
  have hcl : classify_group dates =
      if dates.length < 3 then none
      else if 4 * (dates.length - 1) ≤ 5 * cM then some RecInterval.monthly
      else if 4 * (dates.length - 1) ≤ 5 * cW then some RecInterval.weekly
      else none := by
    rw [classify_group, hcM, hcW, hgaps]
  by_cases h3 : dates.length < 3
  · rw [hcl, if_pos h3]
    refine ⟨fun h => absurd rfl h, ?_, ?_, by decide, by decide⟩
    · constructor
      · intro h; exact absurd h (by simp)
      · intro ⟨h, _⟩; omega
    · constructor
      · intro h; exact absurd h (by simp)
      · intro ⟨h, _⟩; omega
  · rw [hcl, if_neg h3]
    by_cases hM : 4 * (dates.length - 1) ≤ 5 * cM
    · rw [if_pos hM]
      refine ⟨fun _ => by omega, ?_, ?_, by decide, by decide⟩
      · simp only [Option.some.injEq]
        constructor
        · intro _; exact ⟨by omega, hM⟩
        · intro _; trivial
      · simp only [Option.some.injEq]
        constructor
        · intro h; exact absurd h (by simp)
        · intro ⟨_, hW⟩
          exfalso
          omega
    · rw [if_neg hM]
      by_cases hW : 4 * (dates.length - 1) ≤ 5 * cW
      · rw [if_pos hW]
        refine ⟨fun _ => by omega, ?_, ?_, by decide, by decide⟩
        · simp only [Option.some.injEq]
          constructor
          · intro h; exact absurd h (by simp)
          · intro ⟨_, hM'⟩; exact absurd hM' hM
        · simp only [Option.some.injEq]
          constructor
          · intro _; exact ⟨by omega, hW⟩
          · intro _; trivial
      · rw [if_neg hW]
        refine ⟨fun h => absurd rfl h, ?_, ?_, by decide, by decide⟩
        · constructor
          · intro h; exact absurd h (by simp)
          · intro ⟨_, hM'⟩; exact absurd hM' hM
        · constructor
          · intro h; exact absurd h (by simp)
          · intro ⟨_, hW'⟩; exact absurd hW' hW

/-- C8 witness: the classification theorem's monthly criterion applied to
the concrete group with gaps [30, 30, 31]. -/
theorem c8_recurrence_classification_witness :
    classify_group datesMonthlyC8 = some RecInterval.monthly :=
  (c8_recurrence_classification datesMonthlyC8).2.1.mpr ⟨by decide, by decide⟩

/-- C9 counterexample: reconciling against a planned id that no longer
exists (the planned table is empty) still inserts the real transaction —
the operation performs no existence re-check and does not fail cleanly,
contrary to the claim. -/
theorem c9_reconcile_counterexample :
    wsC9gone.planned = [] ∧
    (reconcile_tx wsC9gone 1 txC9).transactions =
      [{ tx_date := ⟨2024, 1, 5⟩, amount := -20, account := "A", category_id := 1,
         description := "x" }] := by
  refine ⟨rfl, by decide⟩

/-- C9 amended: `reconcile_tx` performs the insert of the real transaction
and the delete of the matched planned row inside one transaction (an
exception rolls both back), but it never re-verifies that the matched
planned row still exists: the delete removes every planned row with the
matched id, and when no such row exists the planned table is left unchanged
while the real transaction is still inserted. -/
theorem c9_reconcile_amended (s : Workspace) (pid : Nat) (t : NewTxData) (dt : Date)
    (hdt : t.date = some dt)
    (hacc : (s.accounts.any fun a => a.name == t.account) = true) :
    (∃ row : TxRow, (reconcile_tx s pid t).transactions = s.transactions ++ [row] ∧
      row.tx_date = dt ∧ row.amount = t.amount ∧ row.account = t.account ∧
      row.description = t.description) ∧
    (∀ p ∈ (reconcile_tx s pid t).planned, p.id ≠ pid) ∧
    ((∀ p ∈ s.planned, p.id ≠ pid) → (reconcile_tx s pid t).planned = s.planned) := by
  obtain ⟨tdate, tam, tacc, tcat, tdesc⟩ := t
  have hdt' : tdate = some dt := hdt
  subst hdt'
  have hred : reconcile_tx s pid ⟨some dt, tam, tacc, tcat, tdesc⟩ =
      { s with
        categories := (get_or_create_category s.categories tcat "expense").2,
        transactions := s.transactions ++
          [{ tx_date := dt, amount := tam, account := tacc,
             category_id := (get_or_create_category s.categories tcat "expense").1,
             description := tdesc }],
        planned := s.planned.filter fun p => !(p.id == pid) } := by
    unfold reconcile_tx
    dsimp only at hacc ⊢
    rw [if_pos hacc]
  rw [hred]
  refine ⟨?_, ?_, ?_⟩
  · exact ⟨_, rfl, rfl, rfl, rfl, rfl⟩
  · intro p hp
    have h2 := (List.mem_filter.mp hp).2
    simp only [Bool.not_eq_eq_eq_not, Bool.not_true, beq_eq_false_iff_ne, ne_eq] at h2
    exact h2
  · intro hall
    apply List.filter_eq_self.mpr
    intro p hp
    simp only [Bool.not_eq_eq_eq_not, Bool.not_true, beq_eq_false_iff_ne, ne_eq]
    exact hall p hp

/-- C9 witness: the amended reconcile theorem applied to the concrete
workspace whose only planned row has id 2, reconciling planned id 1. -/
theorem c9_reconcile_witness :
    (reconcile_tx wsC9 1 txC9).planned = wsC9.planned :=
  (c9_reconcile_amended wsC9 1 txC9 ⟨2024, 1, 5⟩ rfl (by decide)).2.2 (by decide)

/-- C10 witness: the theorem applied to the concrete workspace with two
daily rules of category 4, both occurring on 2024-01-01 with nothing
suppressing them. -/
theorem c10_no_recurring_self_suppression_witness :
    2 ≤ (get_future_events 5 wsC10 ⟨2024, 1, 1⟩ ⟨2024, 1, 2⟩ none).countP fun e =>
      decide (e.prov = Provenance.recurring) && (e.date == ⟨2024, 1, 1⟩) &&
        (e.category_id == 4) :=
  c10_no_recurring_self_suppression 5 wsC10 ⟨2024, 1, 1⟩ ⟨2024, 1, 2⟩ none 0 1
    (by decide) (by decide) (by decide) ⟨2024, 1, 1⟩ (by decide) (by decide)
    (by decide) (by decide)
